import Mathlib

/-!
Verification of the NetKet Monte Carlo expectation-estimation core against its
natural-language specification.  The Python sources are embedded shallowly:
arrays become lists, floating-point scalars become exact rationals (and complex
numbers with rational data where the code works with complex amplitudes), and
fallible code returns `Except`.  The exponential of the numeric backend is kept
as an explicit function parameter `cexp`, since the embedding is exact while the
backend's `exp` is a floating-point primitive of an external library.
-/

namespace NetKet

/-! ## Batched categorical sampler (`src/netket/sampler/autoreg.py`, `batch_choice`)

The Python code is

  p_cumsum = p.cumsum(axis=1)
  r = p_cumsum[:, -1:] * jax.random.uniform(key, shape=(p.shape[0], 1))
  indices = (r > p_cumsum).sum(axis=1)
  out = a[indices]

We embed one uniform draw per row as a rational `u` in `[0, 1)`; the list `us`
of draws stands for `jax.random.uniform(key, shape=(batch, 1))`, the only way
the key is consumed. -/

/-- Cumulative sum of one row, embedding `p.cumsum(axis=1)` applied to a row. -/
def cumsum : List ℚ → List ℚ
  | [] => []
  | x :: xs => x :: (cumsum xs).map (fun y => x + y)

/-- Index selected for one row: the count of cumulative sums strictly below the
scaled draw `r = total * u`, embedding `(r > p_cumsum).sum(axis=1)` for a row
(`p_cumsum[:, -1]` is the last entry of the cumulative sum). -/
def chosenIndex (u : ℚ) (p : List ℚ) : ℕ :=
  let c := cumsum p
  let r := c.getLastD 0 * u
  (c.filter (fun x => decide (x < r))).length

/-- Embedding of `batch_choice`: row `i` of `p` is sampled with the uniform
draw `us[i]`, and the resulting index selects an element of `a`
(`out = a[indices]`). -/
def batch_choice (us a : List ℚ) (p : List (List ℚ)) : List ℚ :=
  List.zipWith (fun u row => a.getD (chosenIndex u row) 0) us p

/-- Selection rule as the specification words it: the first index whose
cumulative sum strictly exceeds the draw `r = total * u`.  Written from the
spec sentence, to be compared against `chosenIndex` from the source. -/
def specSelectedIndex (u : ℚ) (p : List ℚ) : ℕ :=
  let c := cumsum p
  let r := c.getLastD 0 * u
  c.findIdx (fun x => decide (r < x))

/-- Row `p` is one-hot at `j`: all weight sits in cell `j`. -/
def oneHotAt (p : List ℚ) (j : ℕ) : Prop :=
  j < p.length ∧ 0 < p.getD j 0 ∧ ∀ k < p.length, k ≠ j → p.getD k 0 = 0

lemma cumsum_length (p : List ℚ) : (cumsum p).length = p.length := by
  induction p with
  | nil => rfl
  | cons x xs ih => simp [cumsum, ih]

lemma cumsum_nonneg (p : List ℚ) (hnn : ∀ x ∈ p, 0 ≤ x) :
    ∀ y ∈ cumsum p, 0 ≤ y := by
  induction p with
  | nil => simp [cumsum]
  | cons x xs ih =>
    intro y hy
    simp only [cumsum, List.mem_cons, List.mem_map] at hy
    rcases hy with rfl | ⟨z, hz, rfl⟩
    · exact hnn y (List.mem_cons_self _ _)
    · have hx : 0 ≤ x := hnn x (List.mem_cons_self _ _)
      have hz' : 0 ≤ z := ih (fun a ha => hnn a (List.mem_cons_of_mem _ ha)) z hz
      linarith

lemma cumsum_sorted (p : List ℚ) (hnn : ∀ x ∈ p, 0 ≤ x) :
    (cumsum p).Sorted (· ≤ ·) := by
  induction p with
  | nil => simp [cumsum]
  | cons x xs ih =>
    have hxs : ∀ a ∈ xs, 0 ≤ a := fun a ha => hnn a (List.mem_cons_of_mem _ ha)
    have hs := ih hxs
    simp only [cumsum, List.sorted_cons]
    constructor
    · intro b hb
      simp only [List.mem_map] at hb
      obtain ⟨z, hz, rfl⟩ := hb
      have : 0 ≤ z := cumsum_nonneg xs hxs z hz
      linarith
    · exact List.Pairwise.map _ (fun a b hab => add_le_add_left hab x) hs

lemma getLastD_map_add (x : ℚ) (l : List ℚ) (d : ℚ) :
    (l.map (fun y => x + y)).getLastD (x + d) = x + l.getLastD d := by
  induction l generalizing d with
  | nil => simp
  | cons a as ih => simp only [List.map_cons, List.getLastD_cons, ih]

lemma getLastD_mem_or (l : List ℚ) (d : ℚ) :
    l.getLastD d ∈ l ∨ l.getLastD d = d := by
  induction l generalizing d with
  | nil => right; rfl
  | cons a as ih =>
    rw [List.getLastD_cons]
    rcases ih a with h | h
    · left; exact List.mem_cons_of_mem _ h
    · left; rw [h]; exact List.mem_cons_self _ _

lemma cumsum_getLastD (p : List ℚ) : (cumsum p).getLastD 0 = p.sum := by
  induction p with
  | nil => rfl
  | cons x xs ih =>
    calc (cumsum (x :: xs)).getLastD 0
        = ((cumsum xs).map (fun y => x + y)).getLastD x := by
          simp only [cumsum]
          rw [List.getLastD_cons]
      _ = ((cumsum xs).map (fun y => x + y)).getLastD (x + 0) := by
          rw [add_zero]
      _ = x + (cumsum xs).getLastD 0 := getLastD_map_add x (cumsum xs) 0
      _ = x + xs.sum := by rw [ih]
      _ = (x :: xs).sum := by simp

/-- On a list sorted nondecreasingly, the number of entries strictly below `r`
is the position of the first entry at or above `r`. -/
lemma count_lt_eq_findIdx (r : ℚ) :
    ∀ l : List ℚ, l.Sorted (· ≤ ·) →
      (l.filter (fun x => decide (x < r))).length
        = l.findIdx (fun x => decide (r ≤ x)) := by
  intro l
  induction l with
  | nil => intro _; rfl
  | cons x xs ih =>
    intro hs
    rw [List.sorted_cons] at hs
    obtain ⟨hx, hxs⟩ := hs
    by_cases h : x < r
    · have h1 : decide (x < r) = true := decide_eq_true h
      have h2 : decide (r ≤ x) = false := decide_eq_false (not_le.mpr h)
      rw [List.findIdx_cons, List.filter_cons]
      simp only [h1, if_true, List.length_cons, h2, cond_false]
      rw [ih hxs]
    · have hr : r ≤ x := not_lt.mp h
      have h1 : decide (r ≤ x) = true := decide_eq_true hr
      rw [List.findIdx_cons]
      have hfil : (x :: xs).filter (fun x => decide (x < r)) = [] := by
        rw [List.filter_eq_nil_iff]
        intro a ha
        rcases List.mem_cons.mp ha with rfl | ha'
        · simpa using h
        · have hxa : x ≤ a := hx a ha'
          simp only [decide_eq_true_eq]
          intro hc
          exact absurd (lt_of_le_of_lt hxa hc) (not_lt.mpr hr)
      simp [hfil, h1]

lemma cumsum_all_zero (p : List ℚ) (hz : ∀ x ∈ p, x = 0) :
    ∀ y ∈ cumsum p, y = 0 := by
  induction p with
  | nil => simp [cumsum]
  | cons x xs ih =>
    intro y hy
    have hx : x = 0 := hz x (List.mem_cons_self _ _)
    have hxs : ∀ a ∈ xs, a = 0 := fun a ha => hz a (List.mem_cons_of_mem _ ha)
    simp only [cumsum, List.mem_cons, List.mem_map] at hy
    rcases hy with rfl | ⟨z, hzz, rfl⟩
    · exact hx
    · have := ih hxs z hzz
      simp [hx, this]

/-- On an all-zero row the scaled draw is zero and no cumulative entry is
strictly below it, so index 0 is selected whatever the draw. -/
lemma chosenIndex_zero_row (u : ℚ) (p : List ℚ) (hz : ∀ x ∈ p, x = 0) :
    chosenIndex u p = 0 := by
  have hc : ∀ y ∈ cumsum p, y = 0 := cumsum_all_zero p hz
  have hlast : (cumsum p).getLastD 0 = 0 := by
    rcases getLastD_mem_or (cumsum p) 0 with h | h
    · exact hc _ h
    · exact h
  unfold chosenIndex
  simp only [hlast, zero_mul]
  have hfil : (cumsum p).filter (fun x => decide (x < 0)) = [] := by
    rw [List.filter_eq_nil_iff]
    intro a ha
    have := hc a ha
    simp [this]
  simp [hfil]

lemma oneHot_tail_zero (q : ℚ) (qs : List ℚ) (h : oneHotAt (q :: qs) 0) :
    ∀ x ∈ qs, x = 0 := by
  intro x hx
  obtain ⟨⟨m, hm⟩, rfl⟩ := List.mem_iff_get.mp hx
  have h0 := h.2.2 (m + 1) (by simpa using Nat.succ_lt_succ hm) (Nat.succ_ne_zero m)
  rw [List.getD_cons_succ] at h0
  rw [← h0]
  rw [List.getD_eq_getElem _ _ hm]
  simp

lemma oneHot_tail (q : ℚ) (qs : List ℚ) (k : ℕ) (h : oneHotAt (q :: qs) (k + 1)) :
    oneHotAt qs k := by
  refine ⟨?_, ?_, ?_⟩
  · have := h.1
    simpa using this
  · have := h.2.1
    rwa [List.getD_cons_succ] at this
  · intro m hm hmk
    have := h.2.2 (m + 1) (by simpa using Nat.succ_lt_succ hm)
      (by simpa using hmk)
    rwa [List.getD_cons_succ] at this

lemma oneHot_head_zero (q : ℚ) (qs : List ℚ) (k : ℕ) (h : oneHotAt (q :: qs) (k + 1)) :
    q = 0 := by
  have := h.2.2 0 (by simp) (by simp)
  simpa using this

lemma oneHot_sum (p : List ℚ) (j : ℕ) (h : oneHotAt p j) :
    p.sum = p.getD j 0 := by
  induction p generalizing j with
  | nil => exact absurd h.1 (by simp)
  | cons q qs ih =>
    cases j with
    | zero =>
      have hz := oneHot_tail_zero q qs h
      have : qs.sum = 0 := List.sum_eq_zero hz
      simp [this]
    | succ k =>
      have hq := oneHot_head_zero q qs k h
      have := ih k (oneHot_tail q qs k h)
      simp [hq, this]

lemma count_cumsum_oneHot (r : ℚ) :
    ∀ (p : List ℚ) (j : ℕ), oneHotAt p j → 0 < r → r ≤ p.getD j 0 →
      ((cumsum p).filter (fun x => decide (x < r))).length = j := by
  intro p
  induction p with
  | nil => intro j h _ _; exact absurd h.1 (by simp)
  | cons q qs ih =>
    intro j hone hr hrw
    cases j with
    | zero =>
      have hz := oneHot_tail_zero q qs hone
      have hrq : r ≤ q := by simpa using hrw
      have hcz : ∀ y ∈ cumsum qs, y = 0 := cumsum_all_zero qs hz
      have hfil : (cumsum (q :: qs)).filter (fun x => decide (x < r)) = [] := by
        rw [List.filter_eq_nil_iff]
        intro a ha
        simp only [cumsum, List.mem_cons, List.mem_map] at ha
        have haq : a = q ∨ ∃ z ∈ cumsum qs, q + z = a := ha
        have hge : r ≤ a := by
          rcases haq with rfl | ⟨z, hzz, rfl⟩
          · exact hrq
          · have := hcz z hzz
            simpa [this] using hrq
        simp only [decide_eq_true_eq]
        exact not_lt.mpr hge
      simp [hfil]
    | succ k =>
      have hq := oneHot_head_zero q qs k hone
      have htail := oneHot_tail q qs k hone
      have hrw' : r ≤ qs.getD k 0 := by
        simpa [List.getD_cons_succ] using hrw
      have hmap : (cumsum qs).map (fun y => q + y) = cumsum qs := by
        rw [hq]
        simp
      have hhead : decide (q < r) = true := by
        rw [hq]
        exact decide_eq_true hr
      calc ((cumsum (q :: qs)).filter (fun x => decide (x < r))).length
          = ((q :: cumsum qs).filter (fun x => decide (x < r))).length := by
            simp only [cumsum, hmap]
        _ = ((cumsum qs).filter (fun x => decide (x < r))).length + 1 := by
            rw [List.filter_cons]
            simp [hhead]
        _ = k + 1 := by rw [ih k htail hr hrw']

lemma chosenIndex_oneHot (u : ℚ) (p : List ℚ) (j : ℕ) (hone : oneHotAt p j)
    (hu0 : 0 < u) (hu1 : u < 1) : chosenIndex u p = j := by
  have hw : 0 < p.getD j 0 := hone.2.1
  have hsum : p.sum = p.getD j 0 := oneHot_sum p j hone
  unfold chosenIndex
  simp only [cumsum_getLastD, hsum]
  exact count_cumsum_oneHot (p.getD j 0 * u) p j hone (mul_pos hw hu0)
    (by nlinarith)

lemma chosenIndex_lt (u : ℚ) (p : List ℚ) (hnn : ∀ x ∈ p, 0 ≤ x)
    (hpos : 0 < p.sum) (hu0 : 0 ≤ u) (hu1 : u < 1) :
    chosenIndex u p < p.length := by
  have hrlt : p.sum * u < p.sum := by nlinarith
  have hmem : p.sum ∈ cumsum p := by
    rcases getLastD_mem_or (cumsum p) 0 with h | h
    · rwa [cumsum_getLastD] at h
    · rw [cumsum_getLastD] at h
      exact absurd h (ne_of_gt hpos)
  suffices h : chosenIndex u p < (cumsum p).length by
    rwa [cumsum_length] at h
  unfold chosenIndex
  simp only [cumsum_getLastD]
  apply Nat.lt_of_le_of_ne (List.length_filter_le _ _)
  intro heq
  have hself : (cumsum p).filter (fun x => decide (x < p.sum * u)) = cumsum p :=
    List.Sublist.eq_of_length (List.filter_sublist _) heq
  have : ∀ a ∈ cumsum p, decide (a < p.sum * u) = true := by
    rw [← List.filter_eq_self]
    exact hself
  have hlast := this _ hmem
  rw [decide_eq_true_eq] at hlast
  exact absurd hlast (not_lt.mpr (le_of_lt hrlt))

lemma oneHotAt_01 : oneHotAt [(0:ℚ), 1] 1 := by
  refine ⟨by norm_num, by norm_num, ?_⟩
  intro k hk hkn
  simp only [List.length_cons, List.length_nil] at hk
  interval_cases k
  · rfl
  · exact absurd rfl hkn

/-- Claim C1, counterexample.  With category values `a = [10, 20]`, the
one-hot weight row `p = [0, 1]` (all weight in cell 1) and the admissible
uniform draw `u = 0`, the code selects index 0 (value 10), while the first
index whose cumulative sum strictly exceeds the draw `r = 0` is index 1
(value 20): the claim's selection rule and its one-hot determinism both fail
at `u = 0`. -/
theorem claim_c1_counterexample :
    ((0:ℚ) ≤ 0 ∧ (0:ℚ) < 1) ∧
    (∀ x ∈ [(0:ℚ), 1], 0 ≤ x) ∧ (0:ℚ) < [(0:ℚ), 1].sum ∧
    oneHotAt [(0:ℚ), 1] 1 ∧
    chosenIndex 0 [(0:ℚ), 1] = 0 ∧
    specSelectedIndex 0 [(0:ℚ), 1] = 1 ∧
    chosenIndex 0 [(0:ℚ), 1] ≠ specSelectedIndex 0 [(0:ℚ), 1] ∧
    batch_choice [0] [10, 20] [[(0:ℚ), 1]] = [10] := by
  refine ⟨⟨le_refl _, by norm_num⟩, by norm_num, by norm_num,
    oneHotAt_01, ?_, ?_, ?_, ?_⟩
  · norm_num [chosenIndex, cumsum]
  · norm_num [specSelectedIndex, cumsum, List.findIdx_cons]
  · norm_num [chosenIndex, specSelectedIndex, cumsum, List.findIdx_cons]
  · norm_num [batch_choice, chosenIndex, cumsum]

/-- Claim C1 (amended): for non-negative weights with positive row sum and a
uniform draw `u` in `[0, 1)`, `batch_choice` selects the first category index
whose cumulative sum is at or above the scaled draw `r = total * u` (not
strictly above it); for a one-hot row concentrated in cell `j` the selected
index equals `j` for every draw with `0 < u < 1`. -/
theorem claim_c1_amended (u : ℚ) (p : List ℚ)
    (hnn : ∀ x ∈ p, 0 ≤ x) (hpos : 0 < p.sum) (hu0 : 0 ≤ u) (hu1 : u < 1) :
    chosenIndex u p
        = (cumsum p).findIdx (fun x => decide ((cumsum p).getLastD 0 * u ≤ x)) ∧
    ∀ j, oneHotAt p j → 0 < u → chosenIndex u p = j := by
  constructor
  · exact count_lt_eq_findIdx _ _ (cumsum_sorted p hnn)
  · intro j hone hu
    exact chosenIndex_oneHot u p j hone hu hu1

/-- Witness for the amended claim C1 at the one-hot row `[0, 1]` with draw
`u = 1/2`: the selected index is 1. -/
theorem claim_c1_amended_witness :
    (∀ x ∈ [(0:ℚ), 1], 0 ≤ x) ∧ (0:ℚ) < [(0:ℚ), 1].sum ∧
    (0:ℚ) ≤ 1/2 ∧ (1/2:ℚ) < 1 ∧ oneHotAt [(0:ℚ), 1] 1 ∧ (0:ℚ) < 1/2 ∧
    chosenIndex (1/2) [(0:ℚ), 1] = 1 :=
  ⟨by norm_num, by norm_num, by norm_num, by norm_num, oneHotAt_01, by norm_num,
    (claim_c1_amended (1/2) [(0:ℚ), 1] (by norm_num) (by norm_num) (by norm_num)
        (by norm_num)).2 1 oneHotAt_01 (by norm_num)⟩

lemma batch_choice_mem (us a : List ℚ) (p : List (List ℚ))
    (hn : ∀ row ∈ p, row.length = a.length)
    (hnn : ∀ row ∈ p, ∀ x ∈ row, 0 ≤ x)
    (hpos : ∀ row ∈ p, 0 < row.sum)
    (hu : ∀ u ∈ us, 0 ≤ u ∧ u < 1) :
    ∀ v ∈ batch_choice us a p, v ∈ a := by
  induction us generalizing p with
  | nil => simp [batch_choice]
  | cons u us ih =>
    cases p with
    | nil => simp [batch_choice]
    | cons row rows =>
      intro v hv
      simp only [batch_choice, List.zipWith_cons_cons, List.mem_cons] at hv
      rcases hv with rfl | hv'
      · have hrow : row ∈ row :: rows := List.mem_cons_self _ _
        have hlt : chosenIndex u row < row.length :=
          chosenIndex_lt u row (hnn row hrow) (hpos row hrow)
            (hu u (List.mem_cons_self _ _)).1 (hu u (List.mem_cons_self _ _)).2
        have hla : chosenIndex u row < a.length := by
          rw [← hn row hrow]
          exact hlt
        rw [List.getD_eq_getElem _ _ hla]
        exact List.getElem_mem _
      · exact ih rows (fun r hr => hn r (List.mem_cons_of_mem _ hr))
          (fun r hr => hnn r (List.mem_cons_of_mem _ hr))
          (fun r hr => hpos r (List.mem_cons_of_mem _ hr))
          (fun w hw => hu w (List.mem_cons_of_mem _ hw)) v hv'

/-- Claim C6: for valid inputs (uniform draws in `[0, 1)`, non-negative weight
rows of positive sum, rows as wide as the category list), the selected index of
every row is in bounds (strictly below `a.length`, since the scaled draw stays
strictly below the final cumulative sum), and `batch_choice` returns exactly
one element of `a` per row of `p`, so its output has length `p.length`. -/
theorem claim_c6_batch_choice_in_bounds (us a : List ℚ) (p : List (List ℚ))
    (hlen : us.length = p.length)
    (hn : ∀ row ∈ p, row.length = a.length)
    (hnn : ∀ row ∈ p, ∀ x ∈ row, 0 ≤ x)
    (hpos : ∀ row ∈ p, 0 < row.sum)
    (hu : ∀ u ∈ us, 0 ≤ u ∧ u < 1) :
    (batch_choice us a p).length = p.length ∧
    (∀ i, i < p.length → chosenIndex (us.getD i 0) (p.getD i []) < a.length) ∧
    (∀ v ∈ batch_choice us a p, v ∈ a) := by
  refine ⟨?_, ?_, batch_choice_mem us a p hn hnn hpos hu⟩
  · simp [batch_choice, hlen]
  · intro i hi
    have hrow : p.getD i [] ∈ p := by
      rw [List.getD_eq_getElem _ _ hi]
      exact List.getElem_mem _
    have hiu : i < us.length := by rw [hlen]; exact hi
    have humem : us.getD i 0 ∈ us := by
      rw [List.getD_eq_getElem _ _ hiu]
      exact List.getElem_mem _
    have hlt : chosenIndex (us.getD i 0) (p.getD i []) < (p.getD i []).length :=
      chosenIndex_lt _ _ (hnn _ hrow) (hpos _ hrow)
        (hu _ humem).1 (hu _ humem).2
    rw [← hn _ hrow]
    exact hlt

/-- Witness for claim C6 at `us = [1/2]`, `a = [5, 7]`, `p = [[1, 1]]`. -/
theorem claim_c6_batch_choice_in_bounds_witness :
    ([(1/2:ℚ)].length = [[(1:ℚ), 1]].length) ∧
    (∀ row ∈ [[(1:ℚ), 1]], row.length = [(5:ℚ), 7].length) ∧
    (∀ row ∈ [[(1:ℚ), 1]], ∀ x ∈ row, 0 ≤ x) ∧
    (∀ row ∈ [[(1:ℚ), 1]], 0 < row.sum) ∧
    (∀ u ∈ [(1/2:ℚ)], 0 ≤ u ∧ u < 1) ∧
    (batch_choice [(1/2:ℚ)] [5, 7] [[(1:ℚ), 1]]).length = 1 ∧
    chosenIndex ([(1/2:ℚ)].getD 0 0) ([[(1:ℚ), 1]].getD 0 []) < [(5:ℚ), 7].length :=
  ⟨by norm_num, by norm_num, by norm_num, by norm_num, by norm_num,
    (claim_c6_batch_choice_in_bounds [(1/2:ℚ)] [5, 7] [[(1:ℚ), 1]]
      (by norm_num) (by norm_num) (by norm_num) (by norm_num) (by norm_num)).1,
    (claim_c6_batch_choice_in_bounds [(1/2:ℚ)] [5, 7] [[(1:ℚ), 1]]
      (by norm_num) (by norm_num) (by norm_num) (by norm_num) (by norm_num)).2.1
      0 (by norm_num)⟩

/-- Claim C10: on a row of `p` whose weights are all zero, every cumulative sum
is zero, the scaled draw is `0 * u = 0`, the strict comparison holds nowhere,
and `batch_choice` deterministically selects index 0 — the entry `a[0]` —
whatever the uniform draw for that row was. -/
theorem claim_c10_zero_row_selects_first (us a : List ℚ) (p : List (List ℚ))
    (i : ℕ) (hi : i < p.length) (hus : i < us.length)
    (hzero : ∀ x ∈ p.getD i [], x = 0) (ha : a ≠ []) :
    (batch_choice us a p).getD i 0 = a.getD 0 0 ∧
    chosenIndex (us.getD i 0) (p.getD i []) = 0 := by
  have hidx : chosenIndex (us.getD i 0) (p.getD i []) = 0 :=
    chosenIndex_zero_row _ _ hzero
  refine ⟨?_, hidx⟩
  have hzlen : i < (batch_choice us a p).length := by
    simp only [batch_choice, List.length_zipWith]
    exact lt_min hus hi
  rw [List.getD_eq_getElem _ _ hzlen]
  simp only [batch_choice]
  rw [List.getElem_zipWith]
  rw [show us[i] = us.getD i 0 by rw [List.getD_eq_getElem _ _ hus],
      show p[i] = p.getD i [] by rw [List.getD_eq_getElem _ _ hi]]
  rw [hidx]

/-- Witness for claim C10 at `us = [9/10]`, `a = [3, 4]`, `p = [[0, 0]]`. -/
theorem claim_c10_zero_row_selects_first_witness :
    (0 < [[(0:ℚ), 0]].length) ∧ (0 < [(9/10:ℚ)].length) ∧
    (∀ x ∈ [[(0:ℚ), 0]].getD 0 [], x = 0) ∧ ([(3:ℚ), 4] ≠ ([] : List ℚ)) ∧
    (batch_choice [(9/10:ℚ)] [3, 4] [[(0:ℚ), 0]]).getD 0 0 = [(3:ℚ), 4].getD 0 0 ∧
    chosenIndex ([(9/10:ℚ)].getD 0 0) ([[(0:ℚ), 0]].getD 0 []) = 0 :=
  ⟨by norm_num, by norm_num, by norm_num, by simp,
    (claim_c10_zero_row_selects_first [(9/10:ℚ)] [3, 4] [[(0:ℚ), 0]] 0
      (by norm_num) (by norm_num) (by norm_num) (by simp)).1,
    (claim_c10_zero_row_selects_first [(9/10:ℚ)] [3, 4] [[(0:ℚ), 0]] 0
      (by norm_num) (by norm_num) (by norm_num) (by simp)).2⟩

/-! ## Hilbert-space descriptor and `ARDirectSampler` construction

From `src/netket/sampler/autoreg.py` (`ARDirectSampler.__post_init__`) and the
Hilbert interface the spec fixes (`size`, `local_states`). -/

/-- Immutable Hilbert-space descriptor: number of degrees of freedom and the
ordered allowed values per degree of freedom. -/
structure AbstractHilbert where
  size : ℕ
  local_states : List ℚ
deriving DecidableEq

/-- A Python value supplied for `machine_pow`: an `int`, a `float`, or a
traced value inserted by the jit compiler (neither an int nor a float). -/
inductive PyNumber
  | int (n : ℤ)
  | float (q : ℚ)
  | traced
deriving DecidableEq

/-- Numeric value carried by a `PyNumber`, when it has one. -/
def PyNumber.value : PyNumber → Option ℚ
  | .int n => some (n : ℚ)
  | .float q => some q
  | .traced => none

/-- Embedding of the check in `ARDirectSampler.__post_init__`:
`if isinstance(self.machine_pow, int) and self.machine_pow != 2: raise`. -/
def postInitCheck (machinePow : PyNumber) : Except String Unit :=
  match machinePow with
  | .int n =>
      if n ≠ 2 then
        .error "ARDirectSampler.machine_pow should not be used. Modify the model machine_pow directly."
      else .ok ()
  | _ => .ok ()

/-- Configuration fields of `ARDirectSampler` relevant here (inherited from
`Sampler`): the Hilbert space, the number of chains per rank and the
`machine_pow` override. -/
structure ARDirectSampler where
  hilbert : AbstractHilbert
  n_chains_per_rank : ℕ
  machine_pow : PyNumber

/-- Constructing an `ARDirectSampler` runs `__post_init__` first: the sampler
value exists only if the check passed, and no sampling is involved in
construction. -/
def mkARDirectSampler (hi : AbstractHilbert) (nChains : ℕ)
    (machinePow : PyNumber) : Except String ARDirectSampler :=
  (postInitCheck machinePow).map (fun _ => ⟨hi, nChains, machinePow⟩)

/-- Claim C3, counterexample: the value `3.0` supplied as a Python float is a
sampler-level `machine_pow` other than the default 2, yet construction
succeeds, because the check only fires on `int` values
(`isinstance(self.machine_pow, int) and self.machine_pow != 2`). -/
theorem claim_c3_counterexample :
    PyNumber.value (.float 3) ≠ some 2 ∧
    mkARDirectSampler ⟨1, [-1, 1]⟩ 1 (.float 3)
      = .ok ⟨⟨1, [-1, 1]⟩, 1, .float 3⟩ := by
  constructor
  · simp [PyNumber.value]
  · rfl

/-- Claim C3 (amended): constructing an `ARDirectSampler` raises the
misconfiguration error during `__post_init__` — before any sampling — exactly
when the supplied `machine_pow` is an integer different from 2; non-integer
values (floats, traced values) pass the narrow `isinstance` check silently. -/
theorem claim_c3_amended (hi : AbstractHilbert) (nChains : ℕ) (v : PyNumber) :
    (∃ s, mkARDirectSampler hi nChains v = .error s)
      ↔ ∃ n : ℤ, v = .int n ∧ n ≠ 2 := by
  cases v with
  | int n =>
    by_cases h : n = 2
    · subst h
      simp [mkARDirectSampler, postInitCheck, Except.map]
    · simp [mkARDirectSampler, postInitCheck, h, Except.map]
  | float q =>
    simp [mkARDirectSampler, postInitCheck, Except.map]
  | traced =>
    simp [mkARDirectSampler, postInitCheck, Except.map]

/-! ## Hilbert-space compatibility check and `get_configs` dispatch entries

From `src/netket/vqs/mc/common.py` (`check_hilbert`) and
`src/netket/vqs/mc/mc_state/expect.py` (the two `get_configs` registrations). -/

/-- Embedding of `check_hilbert`: raises `NotImplementedError` exactly when
the two descriptors are not equal; returns normally (with no effect)
otherwise. -/
def check_hilbert (A B : AbstractHilbert) : Except String Unit :=
  if A = B then .ok () else .error "Non matching hilbert spaces"

/-- A generic discrete operator at its interface: a Hilbert space and the
connected-configuration expansion `get_conn_padded`. -/
structure DiscreteOperator where
  hilbert : AbstractHilbert
  get_conn_padded :
    List (List ℚ) → List (List (List ℚ)) × List (List ℂ)

/-- The `Squared` wrapper of an operator exposes `.parent`. -/
structure Squared where
  parent : DiscreteOperator

/-- The `Squared` wrapper's Hilbert space is its parent's. -/
def Squared.hilbert (op : Squared) : AbstractHilbert := op.parent.hilbert

/-- The part of a Monte Carlo variational state that the expectation pipeline
reads: its Hilbert space, its cached samples, the parameter pack, the
auxiliary model state, the model's forward function and the sampler's
`machine_pow`. -/
structure MCState (Pars ModelState : Type) where
  hilbert : AbstractHilbert
  samples : List (List ℚ)
  parameters : Pars
  model_state : ModelState
  apply_fun : Pars × ModelState → List ℚ → ℂ
  machine_pow : ℤ

/-- Embedding of the `get_configs` dispatch entry for `(MCState,
DiscreteOperator)`: checks the Hilbert spaces, then expands connected
configurations from the cached samples. -/
def get_configs_discrete {Pars ModelState : Type}
    (vstate : MCState Pars ModelState) (op : DiscreteOperator) :
    Except String (List (List ℚ) × List (List (List ℚ)) × List (List ℂ)) :=
  (check_hilbert vstate.hilbert op.hilbert).map (fun _ =>
    let σ := vstate.samples
    let res := op.get_conn_padded σ
    (σ, res.1, res.2))

/-- Embedding of the `get_configs` dispatch entry for `(MCState, Squared)`:
checks the Hilbert spaces, then expands via `Ô.parent.get_conn_padded`. -/
def get_configs_squared {Pars ModelState : Type}
    (vstate : MCState Pars ModelState) (op : Squared) :
    Except String (List (List ℚ) × List (List (List ℚ)) × List (List ℂ)) :=
  (check_hilbert vstate.hilbert op.hilbert).map (fun _ =>
    let σ := vstate.samples
    let res := op.parent.get_conn_padded σ
    (σ, res.1, res.2))

/-! ## Estimator kernel library (`src/netket/vqs/mc/kernels.py`)

Per-sample kernels take a log-amplitude function `logpsi`, an opaque parameter
pack `pars`, one sampled configuration `σ`, its connected configurations `σp`
and matrix elements `mel`.  The backend's elementwise `exp` is the function
parameter `cexp`.  `jnp.abs(z)**2` on a complex value is the squared modulus,
embedded as `Complex.normSq` (which keeps the definition executable). -/

/-- Embedding of `local_value_kernel`:
`jnp.sum(mel * jnp.exp(logpsi(pars, σp) - logpsi(pars, σ)))`, the broadcast
difference, elementwise exponential and product, then the array sum. -/
def local_value_kernel {Pars : Type} (cexp : ℂ → ℂ)
    (logpsi : Pars → List ℚ → ℂ) (pars : Pars) (σ : List ℚ)
    (σp : List (List ℚ)) (mel : List ℂ) : ℂ :=
  (List.zipWith (fun m s => m * cexp (logpsi pars s - logpsi pars σ)) mel σp).sum

/-- Embedding of `local_value_squared_kernel`:
`jnp.abs(local_value_kernel(...)) ** 2`. -/
def local_value_squared_kernel {Pars : Type} (cexp : ℂ → ℂ)
    (logpsi : Pars → List ℚ → ℂ) (pars : Pars) (σ : List ℚ)
    (σp : List (List ℚ)) (mel : List ℂ) : ℝ :=
  Complex.normSq (local_value_kernel cexp logpsi pars σ σp mel)

/-- Embedding of `local_value_op_op_cost`: each connected configuration is
h-stacked with `σ`, `σ` is h-stacked with itself, and the local-value sum is
taken over the doubled configurations. -/
def local_value_op_op_cost {Pars : Type} (cexp : ℂ → ℂ)
    (logpsi : Pars → List ℚ → ℂ) (pars : Pars) (σ : List ℚ)
    (σp : List (List ℚ)) (mel : List ℂ) : ℂ :=
  let σ_σp := σp.map (fun sp => sp ++ σ)
  let σ_σ := σ ++ σ
  (List.zipWith (fun m s => m * cexp (logpsi pars s - logpsi pars σ_σ)) mel σ_σp).sum

/-- Embedding of `netket.jax.vmap_batched`: apply `f` over the leading axis in
chunks of `batch_size` elements (`none` meaning a single unchunked batch). -/
def vmap_batched (batch_size : Option ℕ) (f : List ℚ → ℂ)
    (l : List (List ℚ)) : List ℂ :=
  match batch_size with
  | none => l.map f
  | some c => ((l.toChunks c).map (fun ch => ch.map f)).join

/-- Regroup a flat list into rows of the same lengths as the rows of a given
pattern, embedding the reshape of the flat `logpsi` values back to
`σp.shape[:-1]`. -/
def unflattenLike {α β : Type} : List (List α) → List β → List (List β)
  | [], _ => []
  | row :: rest, flat => flat.take row.length :: unflattenLike rest (flat.drop row.length)

/-- Embedding of `local_valuekernel_chunked`, the batched chunked local-value
kernel: `σ` has shape (batch, N), `σp` shape (batch, n_conn, N), `mel` shape
(batch, n_conn); the log-amplitudes are evaluated through `vmap_batched` on
the flattened configurations and the weighted sum is taken along the last
axis.  Its only keyword-only parameter is `chunk_size`. -/
def local_valuekernel_chunked {Pars : Type} (cexp : ℂ → ℂ)
    (logpsi : Pars → List ℚ → ℂ) (pars : Pars) (σ : List (List ℚ))
    (σp : List (List (List ℚ))) (mel : List (List ℂ))
    (chunk_size : Option ℕ) : List ℂ :=
  let logpsi_σ := vmap_batched chunk_size (logpsi pars) σ
  let logpsi_σp := unflattenLike σp (vmap_batched chunk_size (logpsi pars) σp.join)
  List.zipWith (fun lσ rowmel =>
      (List.zipWith (fun m lsp => m * cexp (lsp - lσ)) rowmel.2 rowmel.1).sum)
    logpsi_σ (logpsi_σp.zip mel)

/-- Python call semantics for a keyword call of `local_valuekernel_chunked`:
the function accepts only the keyword `chunk_size`; any other keyword name
raises `TypeError` before the body runs. -/
def call_local_valuekernel_chunked {Pars : Type} (kw : String) (cexp : ℂ → ℂ)
    (logpsi : Pars → List ℚ → ℂ) (pars : Pars) (σ : List (List ℚ))
    (σp : List (List (List ℚ))) (mel : List (List ℂ))
    (val : Option ℕ) : Except String (List ℂ) :=
  if kw = "chunk_size" then
    .ok (local_valuekernel_chunked cexp logpsi pars σ σp mel val)
  else
    .error "TypeError: local_valuekernel_chunked() got an unexpected keyword argument"

/-- Embedding of `local_value_squaredkernel_chunked`: the source forwards its
`chunk_size` to `local_valuekernel_chunked` under the keyword name
`batch_size`, which that function does not accept. -/
def local_value_squaredkernel_chunked {Pars : Type} (cexp : ℂ → ℂ)
    (logpsi : Pars → List ℚ → ℂ) (pars : Pars) (σ : List (List ℚ))
    (σp : List (List (List ℚ))) (mel : List (List ℂ))
    (chunk_size : Option ℕ) : Except String (List ℝ) :=
  (call_local_valuekernel_chunked "batch_size" cexp logpsi pars σ σp mel
    chunk_size).map (List.map Complex.normSq)

/-- Embedding of `local_value_op_op_cost_chunked`: the source also forwards
`chunk_size` under the keyword name `batch_size` (and in addition binds
`σ_σp` to the unapplied vmapped h-stacking function rather than to the
h-stacked array; the value passed in that slot is irrelevant because the
keyword `TypeError` is raised at the call in every case, so we pass the
intended array). -/
def local_value_op_op_cost_chunked {Pars : Type} (cexp : ℂ → ℂ)
    (logpsi : Pars → List ℚ → ℂ) (pars : Pars) (σ : List (List ℚ))
    (σp : List (List (List ℚ))) (mel : List (List ℂ))
    (chunk_size : Option ℕ) : Except String (List ℂ) :=
  let σ_σ := σ.map (fun s => s ++ s)
  let σ_σp := List.zipWith (fun row s => row.map (fun sp => sp ++ s)) σp σ
  call_local_valuekernel_chunked "batch_size" cexp logpsi pars σ_σ σ_σp mel
    chunk_size

lemma zipWith_mul_sum (f : List ℚ → ℂ) :
    ∀ (σp : List (List ℚ)) (mel : List ℂ),
      (List.zipWith (fun m s => m * f s) mel σp).sum
        = ∑ k ∈ Finset.range σp.length, mel.getD k 0 * f (σp.getD k []) := by
  intro σp
  induction σp with
  | nil => intro mel; simp
  | cons s sp ih =>
    intro mel
    cases mel with
    | nil => simp
    | cons m ms =>
      rw [List.zipWith_cons_cons, List.sum_cons, List.length_cons,
        Finset.sum_range_succ']
      simp only [List.getD_cons_succ, List.getD_cons_zero]
      rw [ih ms]
      ring

/-- Claim C7: `local_value_kernel` returns the sum over connected
configurations of the matrix element times the exponentiated log-amplitude
ratio, `Σ_k mel_k · exp(logψ(σp_k) − logψ(σ))`. -/
theorem claim_c7_local_value_kernel {Pars : Type} (cexp : ℂ → ℂ)
    (logpsi : Pars → List ℚ → ℂ) (pars : Pars) (σ : List ℚ)
    (σp : List (List ℚ)) (mel : List ℂ) :
    local_value_kernel cexp logpsi pars σ σp mel
      = ∑ k ∈ Finset.range σp.length,
          mel.getD k 0 * cexp (logpsi pars (σp.getD k []) - logpsi pars σ) :=
  zipWith_mul_sum (fun s => cexp (logpsi pars s - logpsi pars σ)) σp mel

/-- Claim C8: `local_value_squared_kernel` is the squared magnitude of
`local_value_kernel` on the same input; its output lives in `ℝ` (it is real
by construction) and is non-negative. -/
theorem claim_c8_local_value_squared_kernel {Pars : Type} (cexp : ℂ → ℂ)
    (logpsi : Pars → List ℚ → ℂ) (pars : Pars) (σ : List ℚ)
    (σp : List (List ℚ)) (mel : List ℂ) :
    local_value_squared_kernel cexp logpsi pars σ σp mel
        = Complex.abs (local_value_kernel cexp logpsi pars σ σp mel) ^ 2 ∧
    0 ≤ local_value_squared_kernel cexp logpsi pars σ σp mel :=
  ⟨(Complex.sq_abs _).symm, Complex.normSq_nonneg _⟩

/-- Claim C2: the chunked kernels do not return without error.  At a concrete
one-sample input with unit chunk size, `local_value_squaredkernel_chunked`
and `local_value_op_op_cost_chunked` both raise `TypeError`, because they
pass their chunk size to `local_valuekernel_chunked` under the keyword
`batch_size` while that function's only keyword-only parameter is
`chunk_size`; the directly-called `local_valuekernel_chunked` itself does
agree with the unchunked kernel on the same input. -/
theorem claim_c2_chunked_kernels_typeerror :
    local_value_squaredkernel_chunked id (fun (_ : Unit) _ => 0) () [[0]]
        [[[0]]] [[1]] (some 1)
      = .error "TypeError: local_valuekernel_chunked() got an unexpected keyword argument" ∧
    local_value_op_op_cost_chunked id (fun (_ : Unit) _ => 0) () [[0]]
        [[[0]]] [[1]] (some 1)
      = .error "TypeError: local_valuekernel_chunked() got an unexpected keyword argument" ∧
    local_valuekernel_chunked id (fun (_ : Unit) _ => 0) () [[0]]
        [[[0]]] [[1]] (some 1)
      = [local_value_kernel id (fun (_ : Unit) _ => 0) () [0] [[0]] [1]] :=
  ⟨rfl, rfl, rfl⟩

/-! ## Expectation driver (`src/netket/vqs/mc/mc_state/expect.py`)

`_expect` normalizes shapes, closes over the model's forward function and
hands the vectorized per-sample local values to the statistics reducer
together with `n_chains = σ_shape[0]` (the leading dimension of `σ` as it was
passed in, read before any flattening).  The reducer `nkjax.expect` itself is
outside the excerpt and is passed in as the function `reduce`. -/

/-- Aggregate statistics produced by the reducer: mean, error of the mean,
variance and a convergence diagnostic. -/
structure Stats (K : Type) where
  mean : K
  error_of_mean : K
  variance : K
  diagnostic : K

/-- Split a list into `n` consecutive blocks of `c` elements each, the
row-major reshape of a flat batch to `(n_chains, -1)`. -/
def chunkBlocks {K : Type} : ℕ → ℕ → List K → List (List K)
  | _, 0, _ => []
  | c, n + 1, l => l.take c :: chunkBlocks c n (l.drop c)

/-- Modelled from the spec: the statistics reducer (`nkjax.expect` and the
`netket.stats` machinery behind it) is not part of the excerpt.  Per the
spec's interface it maps `(per_sample_values, n_chains)` to
`Stats{mean, error, variance, diagnostic}`, the diagnostic being "computed
from the number of independent chains" (split-chain convergence checks).  We
model: mean and variance over the full batch of values; error of the mean as
the variance scaled down by the chain count; diagnostic as the between-chain
spread of the per-chain means, the chains being the `n_chains` consecutive
blocks of the value list.  (Squares stand in for squared moduli, which agrees
on real-valued estimator batches.) -/
def statsReduce {K : Type} [Field K] (values : List K) (nChains : ℕ) : Stats K :=
  let N : K := (values.length : K)
  let mean := values.sum / N
  let variance := (values.map (fun v => (v - mean) ^ 2)).sum / N
  let chains := chunkBlocks (values.length / nChains) nChains values
  let chainMeans := chains.map (fun ch => ch.sum / (ch.length : K))
  { mean := mean
    error_of_mean := variance / (nChains : K)
    variance := variance
    diagnostic := (chainMeans.map (fun m => (m - mean) ^ 2)).sum / (nChains : K) }

/-- The sampled-configuration argument `σ` of `_expect`: either already flat
with shape `(batch, dof)` or batched by chain with shape
`(chain-dim, second-dim, dof)`. -/
inductive SigmaInput
  | twoD (σ : List (List ℚ))
  | threeD (σ : List (List (List ℚ)))

/-- Matching rank alternatives for the `(σp, mels)` pair. -/
inductive ConnInput (K : Type)
  | threeD (σp : List (List (List ℚ))) (mel : List (List K))
  | fourD (σp : List (List (List (List ℚ)))) (mel : List (List (List K)))

/-- Embedding of `_expect`: record `σ_shape[0]` first, flatten `σ` to
`(batch, dof)` and `σp`/`mels` to matching rank when they arrive
chain-batched, build the `logpsi` closure over the model state, vectorize the
kernel over the batch and reduce with `n_chains = σ_shape[0]`.  The code also
forms the log-density closure `log_pdf = machine_pow * Re(logpsi)`, which the
reducer's statistics (as specified) do not consume; `machine_pow` is kept in
the signature. -/
def _expect {Pars ModelState K : Type}
    (reduce : List K → ℕ → Stats K)
    (local_value_kernel :
      (Pars → List ℚ → K) → Pars → List ℚ → List (List ℚ) → List K → K)
    (model_apply_fun : Pars × ModelState → List ℚ → K)
    (machine_pow : ℤ) (parameters : Pars) (model_state : ModelState)
    (σin : SigmaInput) (connin : ConnInput K) : Stats K :=
  let σ_shape0 := match σin with
    | .twoD σ => σ.length
    | .threeD σ => σ.length
  let σ := match σin with
    | .twoD σ => σ
    | .threeD σ => σ.join
  let conn := match connin with
    | .threeD σp mel => (σp, mel)
    | .fourD σp mel => (σp.join, mel.join)
  let logpsi := fun (w : Pars) (s : List ℚ) => model_apply_fun (w, model_state) s
  let values := List.zipWith
    (fun s pm => local_value_kernel logpsi parameters s pm.1 pm.2)
    σ (conn.1.zip conn.2)
  reduce values σ_shape0

/-- Embedding of the `expect` dispatch entry for `(MCState,
DiscreteOperator)`: retrieve `(σ, σp, mels)` (which checks the Hilbert
spaces), resolve the local-value kernel, and run `_expect`. -/
def expect_discrete {Pars ModelState : Type} (cexp : ℂ → ℂ)
    (reduce : List ℂ → ℕ → Stats ℂ)
    (vstate : MCState Pars ModelState) (op : DiscreteOperator) :
    Except String (Stats ℂ) :=
  (get_configs_discrete vstate op).map (fun cfg =>
    _expect reduce (local_value_kernel cexp) vstate.apply_fun
      vstate.machine_pow vstate.parameters vstate.model_state
      (.twoD cfg.1) (.threeD cfg.2.1 cfg.2.2))

/-- Claim C4, counterexample.  A concrete kernel and model with per-sample
local values `[0, 1, 0, 1]`: passed chain-batched as a `2 × 2 × 1` array, the
reducer is called with `n_chains = 2` and the split-chain diagnostic is `0`;
passed pre-flattened as the equivalent `4 × 1` array, the reducer is called
with `n_chains = 4` and the diagnostic is `1/4`.  The two `Stats` differ, so
`_expect` is not invariant to pre-flattening `σ`. -/
theorem claim_c4_counterexample :
    _expect statsReduce (fun _ _ _ _ mel => mel.sum)
        (fun (_ : Unit × Unit) _ => (0 : ℂ)) 2 () ()
        (.threeD [[[0], [0]], [[0], [0]]])
        (.fourD [[[[0]], [[0]]], [[[0]], [[0]]]] [[[0], [1]], [[0], [1]]])
      ≠ _expect statsReduce (fun _ _ _ _ mel => mel.sum)
        (fun (_ : Unit × Unit) _ => (0 : ℂ)) 2 () ()
        (.twoD [[0], [0], [0], [0]])
        (.threeD [[[0]], [[0]], [[0]], [[0]]] [[0], [1], [0], [1]]) := by
  intro h
  have hd := congrArg Stats.diagnostic h
  have hA : (_expect statsReduce (fun _ _ _ _ mel => mel.sum)
      (fun (_ : Unit × Unit) _ => (0 : ℂ)) 2 () ()
      (.threeD [[[0], [0]], [[0], [0]]])
      (.fourD [[[[0]], [[0]]], [[[0]], [[0]]]] [[[0], [1]], [[0], [1]]])).diagnostic
      = 0 := by
    simp [_expect, statsReduce, chunkBlocks]
    norm_num
  have hB : (_expect statsReduce (fun _ _ _ _ mel => mel.sum)
      (fun (_ : Unit × Unit) _ => (0 : ℂ)) 2 () ()
      (.twoD [[0], [0], [0], [0]])
      (.threeD [[[0]], [[0]], [[0]], [[0]]] [[0], [1], [0], [1]])).diagnostic
      = 1/4 := by
    simp [_expect, statsReduce, chunkBlocks]
    norm_num
  rw [hA, hB] at hd
  norm_num at hd

/-- Claim C4 (amended): for every kernel, model function, `machine_pow`,
parameters, model state and sample set, the mean and the variance agree
between the chain-batched run and the pre-flattened run (the per-sample value
batches are identical); but the chain count handed to the statistics reducer
is the leading dimension of `σ` as passed — `σ3.length` chain-batched versus
`σ3.join.length` pre-flattened — so the error of the mean and the split-chain
convergence diagnostic, which are computed from the chain count, differ in
general (see the counterexample). -/
theorem claim_c4_amended {Pars ModelState : Type}
    (kernel : (Pars → List ℚ → ℂ) → Pars → List ℚ → List (List ℚ) → List ℂ → ℂ)
    (apply_fun : Pars × ModelState → List ℚ → ℂ) (machine_pow : ℤ)
    (pars : Pars) (ms : ModelState)
    (σ3 : List (List (List ℚ))) (σp4 : List (List (List (List ℚ))))
    (mel3 : List (List (List ℂ))) :
    ((_expect statsReduce kernel apply_fun machine_pow pars ms
          (.threeD σ3) (.fourD σp4 mel3)).mean
        = (_expect statsReduce kernel apply_fun machine_pow pars ms
          (.twoD σ3.join) (.threeD σp4.join mel3.join)).mean) ∧
    ((_expect statsReduce kernel apply_fun machine_pow pars ms
          (.threeD σ3) (.fourD σp4 mel3)).variance
        = (_expect statsReduce kernel apply_fun machine_pow pars ms
          (.twoD σ3.join) (.threeD σp4.join mel3.join)).variance) ∧
    (∀ reduce : List ℂ → ℕ → Stats ℂ,
      _expect reduce kernel apply_fun machine_pow pars ms
          (.threeD σ3) (.fourD σp4 mel3)
        = reduce (List.zipWith
            (fun s pm => kernel
              (fun w t => apply_fun (w, ms) t) pars s pm.1 pm.2)
            σ3.join (σp4.join.zip mel3.join)) σ3.length) ∧
    (∀ reduce : List ℂ → ℕ → Stats ℂ,
      _expect reduce kernel apply_fun machine_pow pars ms
          (.twoD σ3.join) (.threeD σp4.join mel3.join)
        = reduce (List.zipWith
            (fun s pm => kernel
              (fun w t => apply_fun (w, ms) t) pars s pm.1 pm.2)
            σ3.join (σp4.join.zip mel3.join)) σ3.join.length) :=
  ⟨rfl, rfl, fun _ => rfl, fun _ => rfl⟩

/-- Claim C5: `check_hilbert` raises exactly on unequal descriptors and
returns normally with no effect on equal ones; both `get_configs` dispatch
entries run it before expanding connected configurations — the operator's
`get_conn_padded` is universally quantified here, so on mismatched Hilbert
spaces the entries return the error whatever the expansion would have been —
and an `expect` call with mismatched Hilbert spaces fails with that error
before any estimator evaluation. -/
theorem claim_c5_check_hilbert_guards {Pars ModelState : Type}
    (A B : AbstractHilbert) (vstate : MCState Pars ModelState)
    (opd : DiscreteOperator) (sq : Squared) (cexp : ℂ → ℂ)
    (reduce : List ℂ → ℕ → Stats ℂ) :
    (check_hilbert A B = .ok () ↔ A = B) ∧
    ((∃ s, check_hilbert A B = .error s) ↔ A ≠ B) ∧
    (vstate.hilbert ≠ opd.hilbert →
      get_configs_discrete vstate opd = .error "Non matching hilbert spaces") ∧
    (vstate.hilbert ≠ sq.hilbert →
      get_configs_squared vstate sq = .error "Non matching hilbert spaces") ∧
    (vstate.hilbert ≠ opd.hilbert →
      expect_discrete cexp reduce vstate opd
        = .error "Non matching hilbert spaces") := by
  refine ⟨?_, ?_, ?_, ?_, ?_⟩
  · constructor
    · intro h
      by_contra hne
      simp [check_hilbert, hne] at h
    · intro h
      simp [check_hilbert, h]
  · constructor
    · rintro ⟨s, hs⟩
      intro hEq
      simp [check_hilbert, hEq] at hs
    · intro h
      exact ⟨"Non matching hilbert spaces", by simp [check_hilbert, h]⟩
  · intro h
    simp [get_configs_discrete, check_hilbert, h, Except.map]
  · intro h
    simp [get_configs_squared, check_hilbert, h, Except.map]
  · intro h
    simp [expect_discrete, get_configs_discrete, check_hilbert, h, Except.map]

/-- Witness for claim C5 with two descriptors of different size (the spec's
end-to-end scenario): the check, both dispatch entries and the expectation
call all fail with the mismatch error. -/
theorem claim_c5_check_hilbert_guards_witness :
    ((⟨1, [-1, 1]⟩ : AbstractHilbert) ≠ (⟨2, [-1, 1]⟩ : AbstractHilbert)) ∧
    (∃ s, check_hilbert ⟨1, [-1, 1]⟩ ⟨2, [-1, 1]⟩ = .error s) ∧
    get_configs_discrete
        (⟨⟨1, [-1, 1]⟩, [], (), (), fun _ _ => 0, 2⟩ : MCState Unit Unit)
        ⟨⟨2, [-1, 1]⟩, fun _ => ([], [])⟩
      = .error "Non matching hilbert spaces" ∧
    expect_discrete id statsReduce
        (⟨⟨1, [-1, 1]⟩, [], (), (), fun _ _ => 0, 2⟩ : MCState Unit Unit)
        ⟨⟨2, [-1, 1]⟩, fun _ => ([], [])⟩
      = .error "Non matching hilbert spaces" :=
  ⟨by decide,
    (claim_c5_check_hilbert_guards
      ⟨1, [-1, 1]⟩ ⟨2, [-1, 1]⟩
      (⟨⟨1, [-1, 1]⟩, [], (), (), fun _ _ => 0, 2⟩ : MCState Unit Unit)
      ⟨⟨2, [-1, 1]⟩, fun _ => ([], [])⟩ ⟨⟨⟨2, [-1, 1]⟩, fun _ => ([], [])⟩⟩
      id statsReduce).2.1.mpr (by decide),
    (claim_c5_check_hilbert_guards
      ⟨1, [-1, 1]⟩ ⟨2, [-1, 1]⟩
      (⟨⟨1, [-1, 1]⟩, [], (), (), fun _ _ => 0, 2⟩ : MCState Unit Unit)
      ⟨⟨2, [-1, 1]⟩, fun _ => ([], [])⟩ ⟨⟨⟨2, [-1, 1]⟩, fun _ => ([], [])⟩⟩
      id statsReduce).2.2.1 (by decide),
    (claim_c5_check_hilbert_guards
      ⟨1, [-1, 1]⟩ ⟨2, [-1, 1]⟩
      (⟨⟨1, [-1, 1]⟩, [], (), (), fun _ _ => 0, 2⟩ : MCState Unit Unit)
      ⟨⟨2, [-1, 1]⟩, fun _ => ([], [])⟩ ⟨⟨⟨2, [-1, 1]⟩, fun _ => ([], [])⟩⟩
      id statsReduce).2.2.2.2 (by decide)⟩

/-! ## Autoregressive direct sampling (`src/netket/sampler/autoreg.py`, `_sample_chain`)

Randomness follows the spec's modelling note for the external `jax.random`
primitives: the generator state is an immutable token supporting only
deterministic splitting, and splitting a key yields its indexed children.
The uniform variates a key produces are an abstract function `uniform` of the
key (`jax.random.uniform` is an external primitive); `batch_choice` consumes
its key only through that function. -/

/-- Random-generator state token: a seed, or the `i`-th child obtained by
deterministically splitting a key. -/
inductive PRNGKey
  | seed (n : ℕ)
  | child (k : PRNGKey) (i : ℕ)
deriving DecidableEq

/-- Deterministic splitting: `jax.random.split(key, n)` yields the `n`
children of `key` in order. -/
def PRNGKey.split (k : PRNGKey) (n : ℕ) : List PRNGKey :=
  (List.range n).map (PRNGKey.child k)

/-- Sampler state of the autoregressive direct sampler: the generator key. -/
structure ARDirectSamplerState where
  key : PRNGKey
deriving DecidableEq

/-- The autoregressive model at its interface: `conditional` embeds
`model.apply(variables(+cache), σ, index, method=model._conditional,
mutable=["cache"])`, producing per-row probability vectors over the local
states and the updated optional cache; `init_cache` embeds the throwaway
`model.init` pass of `_init_cache`. -/
structure ARModel (Vars Cache : Type) where
  conditional :
    Vars → Option Cache → List (List ℚ) → ℕ → List (List ℚ) × Option Cache
  init_cache : PRNGKey → List (List ℚ) → Option Cache

/-- Write the drawn values into column `index` of the configuration buffer,
embedding `σ.at[:, index].set(new_σ)`. -/
def setColumn (σ : List (List ℚ)) (index : ℕ) (vals : List ℚ) :
    List (List ℚ) :=
  List.zipWith (fun row v => row.set index v) σ vals

/-- One step of the scan in `_sample_chain`: split the carried key
(`new_key, key = jax.random.split(key)` — the first child is carried, the
second consumed), evaluate the conditional, draw one local state per row via
`batch_choice` with the uniforms of the consumed key, and write column
`index`. -/
def sampleStep {Vars Cache : Type} (model : ARModel Vars Cache)
    (vars : Vars) (uniform : PRNGKey → ℕ → List ℚ)
    (localStates : List ℚ)
    (carry : List (List ℚ) × Option Cache × PRNGKey) (index : ℕ) :
    List (List ℚ) × Option Cache × PRNGKey :=
  let σ := carry.1
  let cache := carry.2.1
  let key := carry.2.2
  let new_key := PRNGKey.child key 0
  let used_key := PRNGKey.child key 1
  let pc := model.conditional vars cache σ index
  let new_σ := batch_choice (uniform used_key pc.1.length) localStates pc.1
  (setColumn σ index new_σ, pc.2, new_key)

/-- Initial scan carry of `_sample_chain`: the zero-filled `(B, D)` buffer,
the freshly initialized cache (from the second child of the state key), and
the scan key (the third child). -/
def sampleInitCarry {Vars Cache : Type} (sampler : ARDirectSampler)
    (model : ARModel Vars Cache) (state : ARDirectSamplerState)
    (chain_length : ℕ) : List (List ℚ) × Option Cache × PRNGKey :=
  let key_init := PRNGKey.child state.key 1
  let key_scan := PRNGKey.child state.key 2
  let σ0 := List.replicate (chain_length * sampler.n_chains_per_rank)
    (List.replicate sampler.hilbert.size (0 : ℚ))
  (σ0, model.init_cache key_init σ0, key_scan)

/-- Scan carry after the first `i` sites of the site loop of
`_sample_chain`. -/
def sampleScanCarry {Vars Cache : Type} (sampler : ARDirectSampler)
    (model : ARModel Vars Cache) (vars : Vars)
    (uniform : PRNGKey → ℕ → List ℚ) (state : ARDirectSamplerState)
    (chain_length : ℕ) (i : ℕ) :
    List (List ℚ) × Option Cache × PRNGKey :=
  (List.range i).foldl
    (sampleStep model vars uniform sampler.hilbert.local_states)
    (sampleInitCarry sampler model state chain_length)

/-- Embedding of `_sample_chain`: split the state key into
`(new_key, key_init, key_scan)`, run the sequential site loop over
`0, …, D−1`, reshape the flat `(B, D)` buffer to
`(chain_length, n_chains_per_rank, D)` and return the new sampler state
carrying `new_key`. -/
def _sample_chain {Vars Cache : Type} (sampler : ARDirectSampler)
    (model : ARModel Vars Cache) (vars : Vars)
    (uniform : PRNGKey → ℕ → List ℚ) (state : ARDirectSamplerState)
    (chain_length : ℕ) :
    List (List (List ℚ)) × ARDirectSamplerState :=
  let res := sampleScanCarry sampler model vars uniform state
    chain_length sampler.hilbert.size
  (chunkBlocks sampler.n_chains_per_rank chain_length res.1,
    ⟨PRNGKey.child state.key 0⟩)

/-- Iterated first-child: the key carried by the scan after `n` steps. -/
def iterChild0 : ℕ → PRNGKey → PRNGKey
  | 0, k => k
  | n + 1, k => PRNGKey.child (iterChild0 n k) 0

lemma sampleScanCarry_key {Vars Cache : Type} (sampler : ARDirectSampler)
    (model : ARModel Vars Cache) (vars : Vars)
    (uniform : PRNGKey → ℕ → List ℚ) (state : ARDirectSamplerState)
    (chain_length : ℕ) :
    ∀ i, (sampleScanCarry sampler model vars uniform state
        chain_length i).2.2
      = iterChild0 i (PRNGKey.child state.key 2) := by
  intro i
  induction i with
  | zero => rfl
  | succ n ih =>
    unfold sampleScanCarry at ih ⊢
    rw [List.range_succ, List.foldl_append, List.foldl_cons, List.foldl_nil]
    show PRNGKey.child _ 0 = _
    rw [ih]
    rfl

/-- Claim C9: `_sample_chain` is a pure function of its inputs, so two calls
with the same sampler, model, variables, chain length and input states with
the same generator key return identical samples and identical new states;
the returned state's key is the first child of a deterministic split of the
input key; the key carried into site `i` of the loop is the iterated
first-child of the scan key (the third child of the input key), so the
step-local sub-key consumed at any site `i` — the second child of that
carry — is distinct from the returned top-level key. -/
theorem claim_c9_sample_chain_replay {Vars Cache : Type}
    (sampler : ARDirectSampler) (model : ARModel Vars Cache)
    (vars : Vars) (uniform : PRNGKey → ℕ → List ℚ)
    (s₁ s₂ : ARDirectSamplerState) (chain_length : ℕ)
    (hkey : s₁.key = s₂.key) :
    (_sample_chain sampler model vars uniform s₁ chain_length
        = _sample_chain sampler model vars uniform s₂ chain_length) ∧
    ((_sample_chain sampler model vars uniform s₁ chain_length).2.key
        = PRNGKey.child s₁.key 0) ∧
    (∀ i, (sampleScanCarry sampler model vars uniform s₁
          chain_length i).2.2
        = iterChild0 i (PRNGKey.child s₁.key 2)) ∧
    (∀ i, PRNGKey.child
        ((sampleScanCarry sampler model vars uniform s₁
          chain_length i).2.2) 1
      ≠ (_sample_chain sampler model vars uniform s₁
          chain_length).2.key) := by
  obtain ⟨k₁⟩ := s₁
  obtain ⟨k₂⟩ := s₂
  cases hkey
  refine ⟨rfl, rfl, sampleScanCarry_key _ _ _ _ _ _, ?_⟩
  intro i h
  rw [sampleScanCarry_key] at h
  have h2 := h
  rw [show (_sample_chain sampler model vars uniform ⟨k₁⟩
      chain_length).2.key = PRNGKey.child k₁ 0 from rfl] at h2
  simp at h2

/-- Witness for claim C9 at a concrete one-site model and seed key. -/
theorem claim_c9_sample_chain_replay_witness :
    ((ARDirectSamplerState.mk (.seed 0)).key
        = (ARDirectSamplerState.mk (.seed 0)).key) ∧
    (_sample_chain ⟨⟨1, [0, 1]⟩, 1, .int 2⟩
        (⟨fun _ _ σ _ => (σ.map (fun _ => [1, 0]), none), fun _ _ => none⟩
          : ARModel Unit Unit)
        () (fun _ n => List.replicate n (1/2)) ⟨.seed 0⟩ 1
      = _sample_chain ⟨⟨1, [0, 1]⟩, 1, .int 2⟩
        (⟨fun _ _ σ _ => (σ.map (fun _ => [1, 0]), none), fun _ _ => none⟩
          : ARModel Unit Unit)
        () (fun _ n => List.replicate n (1/2)) ⟨.seed 0⟩ 1) ∧
    ((_sample_chain ⟨⟨1, [0, 1]⟩, 1, .int 2⟩
        (⟨fun _ _ σ _ => (σ.map (fun _ => [1, 0]), none), fun _ _ => none⟩
          : ARModel Unit Unit)
        () (fun _ n => List.replicate n (1/2)) ⟨.seed 0⟩ 1).2.key
      = PRNGKey.child (.seed 0) 0) ∧
    (PRNGKey.child ((sampleScanCarry ⟨⟨1, [0, 1]⟩, 1, .int 2⟩
        (⟨fun _ _ σ _ => (σ.map (fun _ => [1, 0]), none), fun _ _ => none⟩
          : ARModel Unit Unit)
        () (fun _ n => List.replicate n (1/2)) ⟨.seed 0⟩ 1 0).2.2) 1
      ≠ (_sample_chain ⟨⟨1, [0, 1]⟩, 1, .int 2⟩
        (⟨fun _ _ σ _ => (σ.map (fun _ => [1, 0]), none), fun _ _ => none⟩
          : ARModel Unit Unit)
        () (fun _ n => List.replicate n (1/2)) ⟨.seed 0⟩ 1).2.key) :=
  ⟨rfl,
    (claim_c9_sample_chain_replay ⟨⟨1, [0, 1]⟩, 1, .int 2⟩
      (⟨fun _ _ σ _ => (σ.map (fun _ => [1, 0]), none), fun _ _ => none⟩
          : ARModel Unit Unit)
      () (fun _ n => List.replicate n (1/2)) ⟨.seed 0⟩ ⟨.seed 0⟩ 1 rfl).1,
    (claim_c9_sample_chain_replay ⟨⟨1, [0, 1]⟩, 1, .int 2⟩
      (⟨fun _ _ σ _ => (σ.map (fun _ => [1, 0]), none), fun _ _ => none⟩
          : ARModel Unit Unit)
      () (fun _ n => List.replicate n (1/2)) ⟨.seed 0⟩ ⟨.seed 0⟩ 1 rfl).2.1,
    (claim_c9_sample_chain_replay ⟨⟨1, [0, 1]⟩, 1, .int 2⟩
      (⟨fun _ _ σ _ => (σ.map (fun _ => [1, 0]), none), fun _ _ => none⟩
          : ARModel Unit Unit)
      () (fun _ n => List.replicate n (1/2)) ⟨.seed 0⟩ ⟨.seed 0⟩ 1 rfl).2.2.2 0⟩

end NetKet
